import Mathlib

/-!
Verification of the pitch-detection core of `src/app.js` (browser tuner).

The JavaScript source is shallowly embedded here:
* the pitch estimator `detectPitchAutoCorr` (app.js lines 168–200) and the
  smoothing loop state update (app.js lines 203–217) are embedded over exact
  rationals `ℚ` (JavaScript numbers modelled by exact arithmetic);
* the note-math helpers `freqToMidi`, `midiToFreq`, `midiToNoteName`,
  `centsOff` (app.js lines 44–61) are embedded over `ℝ`, since they use
  `Math.log2` / `Math.pow`.

JavaScript's non-finite outcomes (`NaN`, `±Infinity`) are modelled
explicitly: the estimator returns a value of type `JSOut` whose `nan`
constructor marks the one place a `NaN` could be produced (a `0/0` in the
parabolic-interpolation step), and the note math returns `Option` values
where `none` marks a `NaN`/`±Infinity` result of `Math.log2` on a
non-positive argument.
-/

namespace AfinarVoz

/-- Result of one call of `detectPitchAutoCorr` (app.js lines 168–200):
`null` is the JS `null` ("no pitch"), `nan` marks a `NaN` return value
(possible in JS when the interpolation denominator is zero and the numerator
is zero as well), and `freq f` is an ordinary finite frequency. -/
inductive JSOut where
  | null : JSOut
  | nan : JSOut
  | freq : ℚ → JSOut
deriving DecidableEq, Repr

/-- Constant `MIN_RMS` (app.js line 40). -/
def MIN_RMS : ℚ := 1 / 100

/-- Constant `MIN_FREQUENCY` (app.js line 41). -/
def MIN_FREQUENCY : ℚ := 80

/-- Constant `MAX_FREQUENCY` (app.js line 42). -/
def MAX_FREQUENCY : ℚ := 1500

/-- Constant `smoothAlpha` (app.js line 38). -/
def smoothAlpha : ℚ := 1 / 5

/-- Sum of squared samples, the accumulator of app.js line 170
(`for (let i = 0; i < buf.length; i++) rms += buf[i] * buf[i]`). -/
def sumSq (buf : List ℚ) : ℚ := (buf.map fun x => x * x).sum

/-- The RMS of the frame as the source computes it (app.js line 171,
`rms = Math.sqrt(rms / buf.length)`), over the real numbers. -/
noncomputable def rmsOf (buf : List ℚ) : ℝ :=
  Real.sqrt ((sumSq buf : ℝ) / (buf.length : ℝ))

/-- The silence gate of app.js line 172 (`if (rms < MIN_RMS) return null`)
as an exact decidable predicate: for a non-empty frame,
`Math.sqrt(s/n) < MIN_RMS` holds iff `s/n < MIN_RMS ^ 2` (both sides are
nonnegative); for an empty frame JS computes `Math.sqrt(0/0) = NaN` and
`NaN < MIN_RMS` is `false`, whence the `buf ≠ []` conjunct.  The lemma
`silenced_iff_rms` below proves this equivalent to the source's comparison. -/
def silenced (buf : List ℚ) : Prop :=
  buf ≠ [] ∧ sumSq buf / (buf.length : ℚ) < MIN_RMS ^ 2

instance (buf : List ℚ) : Decidable (silenced buf) := by
  unfold silenced; infer_instance

/-- The autocorrelation array `c` of app.js lines 175–180:
`c[lag] = Σ_{i=0}^{size-1-lag} buf[i] * buf[i+lag]`. -/
def acf (buf : List ℚ) (lag : ℕ) : ℚ :=
  ∑ i ∈ Finset.range (buf.length - lag), buf.getD i 0 * buf.getD (i + lag) 0

/-- The cursor loop of app.js line 183
(`while (d < size - 1 && c[d] > c[d + 1]) d++`), with explicit fuel;
`descendIdx` runs it from `d = 0` with enough fuel for the loop to stop
only because its condition failed. -/
def descendFrom (c : ℕ → ℚ) (size : ℕ) : ℕ → ℕ → ℕ
  | d, 0 => d
  | d, fuel + 1 =>
    if d < size - 1 ∧ c d > c (d + 1) then descendFrom c size (d + 1) fuel else d

/-- The final cursor `d` of app.js line 183. -/
def descendIdx (c : ℕ → ℚ) (size : ℕ) : ℕ := descendFrom c size 0 size

/-- The arg-max scan of app.js lines 184–190
(`let max = -1, maxPos = -1; for (let i = d; i < size; i++) if (c[i] > max)
{ max = c[i]; maxPos = i; }`), as a fold over the index list. -/
def scanMax (c : ℕ → ℚ) : List ℕ → ℚ × ℤ → ℚ × ℤ
  | [], s => s
  | i :: t, s => scanMax c t (if c i > s.1 then (c i, (i : ℤ)) else s)

/-- The cursor `d` computed for a frame. -/
def dOf (buf : List ℚ) : ℕ := descendIdx (acf buf) buf.length

/-- The `(max, maxPos)` pair after the scan of app.js lines 184–190. -/
def scanOf (buf : List ℚ) : ℚ × ℤ :=
  scanMax (acf buf) (List.range' (dOf buf) (buf.length - dOf buf)) (-1, -1)

/-- Value `maxPos` of app.js line 184 (an integer, `-1` when nothing beat the
initial `max = -1`). -/
def maxPosOf (buf : List ℚ) : ℤ := (scanOf buf).2

/-- Value `maxPos` as a natural number (used only after the `maxPos <= 0` test). -/
def pOf (buf : List ℚ) : ℕ := (maxPosOf buf).toNat

/-- Value `y1 = c[maxPos - 1]` (app.js line 193). -/
def y1Of (buf : List ℚ) : ℚ := acf buf (pOf buf - 1)

/-- Value `y2 = c[maxPos]` (app.js line 193). -/
def y2Of (buf : List ℚ) : ℚ := acf buf (pOf buf)

/-- Value `y3 = c[maxPos + 1] || y2` (app.js line 193): out-of-range indexing gives
`undefined` and `0` is falsy, so both cases fall back to `y2`. -/
def y3Of (buf : List ℚ) : ℚ :=
  if pOf buf + 1 < buf.length ∧ acf buf (pOf buf + 1) ≠ 0
  then acf buf (pOf buf + 1) else y2Of buf

/-- The interpolation denominator `2 * (2*y2 - y1 - y3)` of app.js line 194. -/
def denOf (buf : List ℚ) : ℚ :=
  2 * (2 * y2Of buf - y1Of buf - y3Of buf)

/-- The interpolated peak `maxPos + (y3 - y1) / (2*(2*y2 - y1 - y3))` of
app.js lines 194–195 (meaningful when `denOf buf ≠ 0`). -/
def peakOf (buf : List ℚ) : ℚ :=
  (pOf buf : ℚ) + (y3Of buf - y1Of buf) / denOf buf

/-- Function `detectPitchAutoCorr` (app.js lines 168–200), assembled from the pieces
above in source order.  The `denOf buf = 0` case mirrors the JS float
semantics: `(y3-y1)/0` is `NaN` when `y3 - y1 = 0` (and then so is the
returned `freq`), otherwise `±Infinity`, in which case
`peak = maxPos ± Infinity = ±Infinity`, `freq = sampleRate / ±Infinity = ±0`,
and `±0 < MIN_FREQUENCY` makes the function return `null`. -/
def detectPitchAutoCorr (buf : List ℚ) (sampleRate : ℚ) : JSOut :=
  if silenced buf then .null
  else if maxPosOf buf ≤ 0 then .null
  else if denOf buf = 0 then (if y3Of buf - y1Of buf = 0 then .nan else .null)
  else if sampleRate / peakOf buf < MIN_FREQUENCY ∨
          sampleRate / peakOf buf > MAX_FREQUENCY then .null
  else .freq (sampleRate / peakOf buf)

/-- Branch lemma: a frequency is returned exactly when all four tests of
`detectPitchAutoCorr` fall through. -/
lemma detect_eq_freq (buf : List ℚ) (sr : ℚ) (h0 : ¬ silenced buf)
    (h1 : ¬ maxPosOf buf ≤ 0) (h2 : denOf buf ≠ 0)
    (h3 : ¬ (sr / peakOf buf < MIN_FREQUENCY ∨ sr / peakOf buf > MAX_FREQUENCY)) :
    detectPitchAutoCorr buf sr = .freq (sr / peakOf buf) := by
  unfold detectPitchAutoCorr
  rw [if_neg h0, if_neg h1, if_neg h2, if_neg h3]

-- Concrete sanity checks of the embedding on the frame [1,0,1,0,1,0]
-- (period 2): c = [3,0,2,0,1,0], d = 1, maxPos = 2, peak = 5/2.
example : maxPosOf [1, 0, 1, 0, 1, 0] = 2 := by
  norm_num [maxPosOf, scanOf, scanMax, dOf, descendIdx, descendFrom, acf,
    Finset.sum_range_succ, List.range']
example : detectPitchAutoCorr [0, 0, 0, 0] 44100 = .null := by
  have h : silenced [0, 0, 0, 0] := by
    refine ⟨by simp, ?_⟩
    norm_num [sumSq, MIN_RMS]
  unfold detectPitchAutoCorr
  rw [if_pos h]
example : detectPitchAutoCorr [] 44100 = .null := by
  have h0 : ¬ silenced [] := by simp [silenced]
  have h1 : maxPosOf [] ≤ 0 := by
    norm_num [maxPosOf, scanOf, dOf, descendIdx, descendFrom, scanMax, List.range']
  unfold detectPitchAutoCorr
  rw [if_neg h0, if_pos h1]

/-! ### Loop invariants of the estimator -/

/-- With enough fuel, the cursor loop stops only because its condition
failed: at the returned index `r`, `¬ (r < size - 1 ∧ c r > c (r+1))`. -/
lemma descendFrom_stop (c : ℕ → ℚ) (size : ℕ) :
    ∀ (fuel d : ℕ), size - 1 ≤ d + fuel →
      ¬ (descendFrom c size d fuel < size - 1 ∧
          c (descendFrom c size d fuel) > c (descendFrom c size d fuel + 1)) := by
  intro fuel
  induction fuel with
  | zero =>
    intro d hd
    simp only [descendFrom]
    rintro ⟨h1, -⟩
    omega
  | succ n ih =>
    intro d hd
    simp only [descendFrom]
    split
    · exact ih (d + 1) (by omega)
    · assumption

/-- The cursor either never moved, or its last step was an increment, in
which case the autocorrelation strictly descended into the final index. -/
lemma descendFrom_origin (c : ℕ → ℚ) (size : ℕ) :
    ∀ (fuel d : ℕ), descendFrom c size d fuel = d ∨
      (0 < descendFrom c size d fuel ∧
        c (descendFrom c size d fuel - 1) > c (descendFrom c size d fuel)) := by
  intro fuel
  induction fuel with
  | zero => intro d; left; rfl
  | succ n ih =>
    intro d
    simp only [descendFrom]
    split
    · rcases ih (d + 1) with h | h
      · right
        rw [h]
        simpa using And.intro (Nat.succ_pos d) (by simpa using ‹d < size - 1 ∧ c d > c (d + 1)›.2)
      · right; exact h
    · left; rfl

/-- Full characterisation of the arg-max scan over a contiguous index range:
either nothing beat the initial maximum, or the result is the first index of
the range attaining its maximum. -/
lemma scanMax_range' (c : ℕ → ℚ) :
    ∀ (k d : ℕ) (m : ℚ) (mp : ℤ),
      (scanMax c (List.range' d k) (m, mp) = (m, mp) ∧
        ∀ i, d ≤ i → i < d + k → c i ≤ m) ∨
      (∃ p : ℕ, d ≤ p ∧ p < d + k ∧
        scanMax c (List.range' d k) (m, mp) = (c p, (p : ℤ)) ∧ m < c p ∧
        (∀ i, d ≤ i → i < d + k → c i ≤ c p) ∧
        (∀ i, d ≤ i → i < p → c i < c p)) := by
  intro k
  induction k with
  | zero =>
    intro d m mp
    left
    constructor
    · rfl
    · intro i h1 h2; omega
  | succ n ih =>
    intro d m mp
    rw [List.range'_succ]
    by_cases h : c d > m
    · have step : scanMax c (d :: List.range' (d + 1) n) (m, mp) =
          scanMax c (List.range' (d + 1) n) (c d, (d : ℤ)) := by
        simp [scanMax, h]
      rcases ih (d + 1) (c d) (d : ℤ) with ⟨heq, hle⟩ | ⟨p, hp1, hp2, heq, hlt, hle, hstrict⟩
      · right
        refine ⟨d, le_refl d, by omega, by rw [step, heq], h, ?_, ?_⟩
        · intro i h1 h2
          rcases eq_or_lt_of_le h1 with rfl | h1'
          · exact le_refl _
          · exact hle i h1' (by omega)
        · intro i h1 h2; omega
      · right
        refine ⟨p, by omega, by omega, by rw [step, heq], lt_trans h hlt, ?_, ?_⟩
        · intro i h1 h2
          rcases eq_or_lt_of_le h1 with rfl | h1'
          · exact le_of_lt hlt
          · exact hle i h1' (by omega)
        · intro i h1 h2
          rcases eq_or_lt_of_le h1 with rfl | h1'
          · exact hlt
          · exact hstrict i h1' h2
    · have step : scanMax c (d :: List.range' (d + 1) n) (m, mp) =
          scanMax c (List.range' (d + 1) n) (m, mp) := by
        simp [scanMax, h]
      rcases ih (d + 1) m mp with ⟨heq, hle⟩ | ⟨p, hp1, hp2, heq, hlt, hle, hstrict⟩
      · left
        refine ⟨by rw [step, heq], ?_⟩
        intro i h1 h2
        rcases eq_or_lt_of_le h1 with rfl | h1'
        · exact not_lt.mp h
        · exact hle i h1' (by omega)
      · right
        refine ⟨p, by omega, by omega, by rw [step, heq], hlt, ?_, ?_⟩
        · intro i h1 h2
          rcases eq_or_lt_of_le h1 with rfl | h1'
          · exact le_of_lt (lt_of_le_of_lt (not_lt.mp h) hlt)
          · exact hle i h1' (by omega)
        · intro i h1 h2
          rcases eq_or_lt_of_le h1 with rfl | h1'
          · exact lt_of_le_of_lt (not_lt.mp h) hlt
          · exact hstrict i h1' h2

/-- When the scan produced a positive `maxPos`, that position is the first
arg-max of the autocorrelation over `[d, size)`. -/
lemma pOf_spec (buf : List ℚ) (h : 0 < maxPosOf buf) :
    dOf buf ≤ pOf buf ∧ pOf buf < buf.length ∧
    (∀ i, dOf buf ≤ i → i < buf.length → acf buf i ≤ acf buf (pOf buf)) ∧
    (∀ i, dOf buf ≤ i → i < pOf buf → acf buf i < acf buf (pOf buf)) := by
  rcases scanMax_range' (acf buf) (buf.length - dOf buf) (dOf buf) (-1) (-1) with
    ⟨heq, -⟩ | ⟨p, hp1, hp2, heq, -, hle, hstrict⟩
  · exfalso
    have : maxPosOf buf = -1 := by
      unfold maxPosOf scanOf
      rw [heq]
    omega
  · have hmp : maxPosOf buf = (p : ℤ) := by
      unfold maxPosOf scanOf
      rw [heq]
    have hpOf : pOf buf = p := by
      unfold pOf
      rw [hmp, Int.toNat_natCast]
    have hlen : dOf buf + (buf.length - dOf buf) ≤ buf.length := by omega
    refine ⟨by omega, by omega, ?_, ?_⟩
    · intro i h1 h2
      rw [hpOf]
      exact hle i h1 (by omega)
    · intro i h1 h2
      rw [hpOf]
      exact hstrict i h1 (by omega)

/-- The cursor `dOf` satisfies the loop's negated condition. -/
lemma dOf_stop (buf : List ℚ) (h : dOf buf < buf.length - 1) :
    acf buf (dOf buf) ≤ acf buf (dOf buf + 1) := by
  have := descendFrom_stop (acf buf) buf.length buf.length 0 (by omega)
  rw [not_and_or] at this
  rcases this with h' | h'
  · exact absurd h h'
  · exact not_lt.mp h'

/-- If the cursor moved at all, the autocorrelation strictly descended into
its final position. -/
lemma dOf_desc (buf : List ℚ) (h : 0 < dOf buf) :
    acf buf (dOf buf - 1) > acf buf (dOf buf) := by
  rcases descendFrom_origin (acf buf) buf.length buf.length 0 with h' | h'
  · have hd : dOf buf = 0 := h'
    omega
  · exact h'.2

lemma pOf_pos (buf : List ℚ) (h : 0 < maxPosOf buf) : 0 < pOf buf := by
  unfold pOf
  omega

/-- The two possible shapes of the interpolation triple `(y1, y2, y3)` when
a positive `maxPos` was found: either `maxPos` is the stopping cursor `d`
itself (then the neighbours tie on the right and strictly dominate on the
left), or `maxPos > d` (then `y2` strictly dominates `y1` and weakly
dominates `y3`). -/
lemma y_cases (buf : List ℚ) (h : 0 < maxPosOf buf) :
    (y3Of buf = y2Of buf ∧ y2Of buf < y1Of buf) ∨
    (y1Of buf < y2Of buf ∧ y3Of buf ≤ y2Of buf) := by
  obtain ⟨hdp, hplen, hmax, hstrict⟩ := pOf_spec buf h
  have hppos : 0 < pOf buf := pOf_pos buf h
  rcases eq_or_lt_of_le hdp with hdeq | hdlt
  · -- maxPos = d: the loop stopped at d, so c d ≤ c (d+1) where defined,
    -- while the scan gives c (d+1) ≤ c d; and the loop moved, so c (d-1) > c d.
    left
    have hdesc : acf buf (dOf buf - 1) > acf buf (dOf buf) := by
      apply dOf_desc
      omega
    constructor
    · unfold y3Of y2Of
      split
      · next hcond =>
        have hstop := dOf_stop buf (by omega)
        rw [hdeq] at hstop
        exact le_antisymm (hmax _ (by omega) hcond.1) hstop
      · rfl
    · unfold y1Of y2Of
      rw [← hdeq]
      exact hdesc
  · -- maxPos > d: maxPos is the first arg-max, so c (maxPos-1) < c maxPos,
    -- and c (maxPos+1) ≤ c maxPos where defined.
    right
    constructor
    · unfold y1Of y2Of
      exact hstrict _ (by omega) (by omega)
    · unfold y3Of
      split
      · next hcond => exact hmax _ (by omega) hcond.1
      · exact le_refl _

/-- The parabolic-interpolation denominator `2*(2*y2 - y1 - y3)` is never
zero at a positive `maxPos`: the source needs no division-by-zero guard
because the guarded situation cannot arise. -/
lemma denOf_ne_zero (buf : List ℚ) (h : 0 < maxPosOf buf) : denOf buf ≠ 0 := by
  unfold denOf
  rcases y_cases buf h with ⟨h3, h1⟩ | ⟨h1, h3⟩
  · rw [h3]
    intro hc
    nlinarith
  · intro hc
    nlinarith

/-- The interpolated peak `maxPos + shift` is at least `1/2`; in particular
it is positive, so `sampleRate / peak` is an ordinary finite division. -/
lemma peakOf_ge_half (buf : List ℚ) (h : 0 < maxPosOf buf) :
    (1 : ℚ) / 2 ≤ peakOf buf := by
  have hp1 : (1 : ℚ) ≤ (pOf buf : ℚ) := by
    have := pOf_pos buf h
    exact_mod_cast this
  unfold peakOf
  rcases y_cases buf h with ⟨h3, h1⟩ | ⟨h1, h3⟩
  · have hshift : (y3Of buf - y1Of buf) / denOf buf = 1 / 2 := by
      unfold denOf
      rw [h3]
      rw [div_eq_iff (by intro hc; nlinarith)]
      ring
    rw [hshift]
    linarith
  · have hden : 0 < denOf buf := by
      unfold denOf
      nlinarith
    have hshift : -(1 / 2 : ℚ) ≤ (y3Of buf - y1Of buf) / denOf buf := by
      rw [le_div_iff₀ hden]
      unfold denOf
      nlinarith
    linarith

/-- The estimator never produces the `NaN` outcome. -/
lemma detect_ne_nan (buf : List ℚ) (sr : ℚ) :
    detectPitchAutoCorr buf sr ≠ JSOut.nan := by
  unfold detectPitchAutoCorr
  split_ifs with h0 h1 h2 h3 h4
  · simp
  · simp
  · exact absurd h2 (denOf_ne_zero buf (by omega))
  · simp
  · simp
  · simp

/-! ### Claim theorems -/

/-- C1: in the parabolic interpolation step the denominator `2*y2 - y1 - y3`
never vanishes at a positive `maxPos` (so the computation never divides by
zero, the guarded flat-peak situation being unreachable and the guard's
conditional behaviour vacuous), and the estimator never returns the `NaN`
outcome. -/
theorem c1_interp_denominator_safe (buf : List ℚ) (sr : ℚ) :
    (0 < maxPosOf buf → denOf buf ≠ 0) ∧
    detectPitchAutoCorr buf sr ≠ JSOut.nan :=
  ⟨fun h => denOf_ne_zero buf h, detect_ne_nan buf sr⟩

theorem c1_interp_denominator_safe_witness :
    0 < maxPosOf [1, 0, 1, 0, 1, 0] ∧ denOf [1, 0, 1, 0, 1, 0] ≠ 0 ∧
    detectPitchAutoCorr [1, 0, 1, 0, 1, 0] 1000 ≠ JSOut.nan := by
  have hmp : maxPosOf [1, 0, 1, 0, 1, 0] = 2 := by
    norm_num [maxPosOf, scanOf, scanMax, dOf, descendIdx, descendFrom, acf,
      Finset.sum_range_succ, List.range']
  have h := c1_interp_denominator_safe [1, 0, 1, 0, 1, 0] 1000
  exact ⟨by rw [hmp]; norm_num, h.1 (by rw [hmp]; norm_num), h.2⟩

/-- C2 (amended): for malformed input — an empty frame or a non-positive
sample rate — the estimator returns `null` (the `None` result); no error is
raised anywhere in its body. -/
theorem c2_malformed_input_returns_null (buf : List ℚ) (sr : ℚ)
    (h : buf = [] ∨ sr ≤ 0) :
    detectPitchAutoCorr buf sr = JSOut.null := by
  rcases h with rfl | hsr
  · have h0 : ¬ silenced [] := by simp [silenced]
    have h1 : maxPosOf [] ≤ 0 := by
      norm_num [maxPosOf, scanOf, dOf, descendIdx, descendFrom, scanMax, List.range']
    unfold detectPitchAutoCorr
    rw [if_neg h0, if_pos h1]
  · unfold detectPitchAutoCorr
    split_ifs with h0 h1 h2 h3 h4
    · rfl
    · rfl
    · exact absurd h2 (denOf_ne_zero buf (by omega))
    · rfl
    · rfl
    · exfalso
      apply h4
      left
      have hpk := peakOf_ge_half buf (by omega)
      have hq : sr / peakOf buf ≤ 0 :=
        div_nonpos_iff.mpr (Or.inr ⟨hsr, by linarith⟩)
      unfold MIN_FREQUENCY
      linarith

theorem c2_malformed_witness :
    detectPitchAutoCorr [] 44100 = JSOut.null ∧
    detectPitchAutoCorr [1, 0, 1, 0, 1, 0] (-48000) = JSOut.null :=
  ⟨c2_malformed_input_returns_null [] 44100 (Or.inl rfl),
   c2_malformed_input_returns_null [1, 0, 1, 0, 1, 0] (-48000) (Or.inr (by norm_num))⟩

/-- C2 (counterexample to the claim as stated): on the malformed empty
frame the estimator returns `null` — the `None` result — rather than
failing with an `InvalidInput` error (no error channel exists in the
source). -/
theorem c2_counterexample_empty_frame_yields_none :
    detectPitchAutoCorr [] 48000 = JSOut.null := by
  have h0 : ¬ silenced [] := by simp [silenced]
  have h1 : maxPosOf [] ≤ 0 := by
    norm_num [maxPosOf, scanOf, dOf, descendIdx, descendFrom, scanMax, List.range']
  unfold detectPitchAutoCorr
  rw [if_neg h0, if_pos h1]

/-- Any frequency the estimator returns is the computed `sampleRate / peak`
and passed the final range test. -/
lemma detect_freq_spec (buf : List ℚ) (sr f : ℚ)
    (h : detectPitchAutoCorr buf sr = JSOut.freq f) :
    f = sr / peakOf buf ∧ MIN_FREQUENCY ≤ f ∧ f ≤ MAX_FREQUENCY := by
  unfold detectPitchAutoCorr at h
  split_ifs at h with h0 h1 h2 h3 h4
  push_neg at h4
  injection h with hf
  exact ⟨hf.symm, hf ▸ h4.1, hf ▸ h4.2⟩

/-- C3: every frequency the estimator returns is `sampleRate / peak` and
lies within `[MIN_FREQUENCY, MAX_FREQUENCY] = [80, 1500]`; a computed
frequency outside that interval is replaced by `null`. -/
theorem c3_result_in_range (buf : List ℚ) (sr f : ℚ)
    (h : detectPitchAutoCorr buf sr = JSOut.freq f) :
    f = sr / peakOf buf ∧ MIN_FREQUENCY ≤ f ∧ f ≤ MAX_FREQUENCY :=
  detect_freq_spec buf sr f h

theorem c3_result_in_range_witness :
    detectPitchAutoCorr [1, 0, 1, 0, 1, 0] 1000 = JSOut.freq 400 ∧
    MIN_FREQUENCY ≤ (400 : ℚ) ∧ (400 : ℚ) ≤ MAX_FREQUENCY := by
  have hmp : maxPosOf [1, 0, 1, 0, 1, 0] = 2 := by
    norm_num [maxPosOf, scanOf, scanMax, dOf, descendIdx, descendFrom, acf,
      Finset.sum_range_succ, List.range']
  have hp : pOf [1, 0, 1, 0, 1, 0] = 2 := by rw [pOf, hmp]; rfl
  have hy1 : y1Of [1, 0, 1, 0, 1, 0] = 0 := by
    rw [y1Of, hp]; norm_num [acf, Finset.sum_range_succ]
  have hy2 : y2Of [1, 0, 1, 0, 1, 0] = 2 := by
    rw [y2Of, hp]; norm_num [acf, Finset.sum_range_succ]
  have hy3 : y3Of [1, 0, 1, 0, 1, 0] = 2 := by
    rw [y3Of, hp, hy2]; norm_num [acf, Finset.sum_range_succ]
  have hden : denOf [1, 0, 1, 0, 1, 0] = 4 := by
    rw [denOf, hy1, hy2, hy3]; norm_num
  have hpeak : peakOf [1, 0, 1, 0, 1, 0] = 5 / 2 := by
    rw [peakOf, hp, hy1, hy3, hden]; norm_num
  have hdet : detectPitchAutoCorr [1, 0, 1, 0, 1, 0] 1000 = JSOut.freq 400 := by
    have h := detect_eq_freq [1, 0, 1, 0, 1, 0] 1000
      (by norm_num [silenced, sumSq, MIN_RMS])
      (by rw [hmp]; norm_num)
      (by rw [hden]; norm_num)
      (by rw [hpeak]; norm_num [MIN_FREQUENCY, MAX_FREQUENCY])
    rw [h, hpeak]
    norm_num
  exact ⟨hdet, (c3_result_in_range _ _ _ hdet).2.1, (c3_result_in_range _ _ _ hdet).2.2⟩

/-- The source's RMS comparison, over `ℝ` with the genuine square root, is
equivalent to the exact rational gate used in the embedding. -/
lemma silenced_iff_rms (buf : List ℚ) (hne : buf ≠ []) :
    (silenced buf ↔ rmsOf buf < ((MIN_RMS : ℚ) : ℝ)) := by
  unfold silenced rmsOf
  have hc : (0 : ℝ) < ((MIN_RMS : ℚ) : ℝ) := by
    rw [MIN_RMS]
    norm_num
  rw [Real.sqrt_lt' hc]
  constructor
  · rintro ⟨-, hlt⟩
    have : ((sumSq buf / (buf.length : ℚ) : ℚ) : ℝ) < (((MIN_RMS : ℚ) ^ 2 : ℚ) : ℝ) := by
      exact_mod_cast hlt
    push_cast at this
    convert this using 2
  · intro hlt
    refine ⟨hne, ?_⟩
    have : ((sumSq buf : ℚ) : ℝ) / ((buf.length : ℕ) : ℝ) < ((MIN_RMS : ℚ) : ℝ) ^ 2 := hlt
    rw [show (((MIN_RMS : ℚ)) : ℝ) ^ 2 = (((MIN_RMS ^ 2 : ℚ)) : ℝ) by push_cast; ring] at this
    rw [show ((sumSq buf : ℚ) : ℝ) / ((buf.length : ℕ) : ℝ) =
      ((sumSq buf / (buf.length : ℚ) : ℚ) : ℝ) by push_cast; ring] at this
    exact_mod_cast this

/-- C4: a non-empty frame whose RMS amplitude is below the silence
threshold `MIN_RMS = 0.01` makes the estimator return `null` immediately,
whatever the frame's periodic content. -/
theorem c4_silence_gate (buf : List ℚ) (sr : ℚ) (hne : buf ≠ [])
    (h : rmsOf buf < ((MIN_RMS : ℚ) : ℝ)) :
    detectPitchAutoCorr buf sr = JSOut.null := by
  have hs : silenced buf := (silenced_iff_rms buf hne).mpr h
  unfold detectPitchAutoCorr
  rw [if_pos hs]

theorem c4_silence_gate_witness :
    [(1 : ℚ) / 200, 0, -1 / 200, 0] ≠ ([] : List ℚ) ∧
    rmsOf [(1 : ℚ) / 200, 0, -1 / 200, 0] < ((MIN_RMS : ℚ) : ℝ) ∧
    detectPitchAutoCorr [(1 : ℚ) / 200, 0, -1 / 200, 0] 44100 = JSOut.null := by
  have hne : [(1 : ℚ) / 200, 0, -1 / 200, 0] ≠ ([] : List ℚ) := by simp
  have hrms : rmsOf [(1 : ℚ) / 200, 0, -1 / 200, 0] < ((MIN_RMS : ℚ) : ℝ) := by
    apply (silenced_iff_rms _ hne).mp
    refine ⟨hne, ?_⟩
    norm_num [sumSq, MIN_RMS]
  exact ⟨hne, hrms, c4_silence_gate _ 44100 hne hrms⟩

/-! ### The smoothing loop (app.js lines 203–217) -/

/-- One tick of the `loop` function's effect on `smoothedFreq` (app.js
lines 206–217): `if (!freq) ... return;` skips the update for `null`, `NaN`
and the (unreachable) frequency `0`, all falsy in JS; otherwise
`smoothedFreq = smoothedFreq ? (smoothAlpha * freq + (1 - smoothAlpha) *
smoothedFreq) : freq`, where the ternary tests the truthiness of the state
(nonzero). -/
def loopStep (state : ℚ) (est : JSOut) : ℚ :=
  match est with
  | .null => state
  | .nan => state
  | .freq f =>
    if f = 0 then state
    else if state = 0 then f
    else smoothAlpha * f + (1 - smoothAlpha) * state

/-- The `smoothedFreq` state after a list of ticks, starting from the
initial value `0` (app.js line 37, `let smoothedFreq = 0`). -/
def runSmoother (l : List JSOut) : ℚ := l.foldl loopStep 0

/-- Estimates the detector can actually produce: `null`, or a frequency in
`[MIN_FREQUENCY, MAX_FREQUENCY]`. -/
def validEst (est : JSOut) : Prop :=
  est = .null ∨ ∃ f, est = .freq f ∧ MIN_FREQUENCY ≤ f ∧ f ≤ MAX_FREQUENCY

/-- Every value of `detectPitchAutoCorr` is a valid estimate. -/
lemma detect_validEst (buf : List ℚ) (sr : ℚ) :
    validEst (detectPitchAutoCorr buf sr) := by
  rcases hd : detectPitchAutoCorr buf sr with _ | _ | f
  · exact Or.inl rfl
  · exact absurd hd (detect_ne_nan buf sr)
  · exact Or.inr ⟨f, rfl, (detect_freq_spec buf sr f hd).2.1,
      (detect_freq_spec buf sr f hd).2.2⟩

lemma foldl_loopStep_pos (l : List JSOut) (hl : ∀ e ∈ l, validEst e) :
    ∀ s : ℚ, 0 < s → 0 < l.foldl loopStep s := by
  induction l with
  | nil => intro s hs; exact hs
  | cons e t ih =>
    intro s hs
    have he := hl e (List.mem_cons_self e t)
    have ht : ∀ x ∈ t, validEst x := fun x hx => hl x (List.mem_cons_of_mem e hx)
    rcases he with rfl | ⟨f, rfl, hf1, hf2⟩
    · exact ih ht s hs
    · apply ih ht
      simp only [loopStep]
      have hf0 : ¬ f = 0 := by
        unfold MIN_FREQUENCY at hf1
        intro hc
        rw [hc] at hf1
        linarith
      rw [if_neg hf0, if_neg (by linarith : ¬ s = 0)]
      unfold smoothAlpha
      unfold MIN_FREQUENCY at hf1
      nlinarith

/-- The smoothed state is `0` exactly when no frequency estimate has been
received yet (for traces the detector can produce). -/
lemma runSmoother_eq_zero_iff (l : List JSOut) (hl : ∀ e ∈ l, validEst e) :
    (runSmoother l = 0 ↔ ∀ g : ℚ, JSOut.freq g ∉ l) := by
  induction l with
  | nil => simp [runSmoother]
  | cons e t ih =>
    have he := hl e (List.mem_cons_self e t)
    have ht : ∀ x ∈ t, validEst x := fun x hx => hl x (List.mem_cons_of_mem e hx)
    rcases he with rfl | ⟨f, rfl, hf1, hf2⟩
    · have hstep : runSmoother (JSOut.null :: t) = runSmoother t := by
        simp [runSmoother, List.foldl_cons, loopStep]
      rw [hstep]
      rw [ih ht]
      constructor
      · intro hnone g hg
        rcases List.mem_cons.mp hg with hc | hc
        · exact JSOut.noConfusion hc
        · exact hnone g hc
      · intro hnone g hg
        exact hnone g (List.mem_cons_of_mem _ hg)
    · have hf0 : ¬ f = 0 := by
        unfold MIN_FREQUENCY at hf1
        intro hc
        rw [hc] at hf1
        linarith
      have hstep : runSmoother (JSOut.freq f :: t) = t.foldl loopStep f := by
        simp [runSmoother, List.foldl_cons, loopStep, hf0]
      rw [hstep]
      constructor
      · intro hzero
        exfalso
        have hfpos : 0 < f := by
          unfold MIN_FREQUENCY at hf1
          linarith
        have := foldl_loopStep_pos t ht f hfpos
        rw [hzero] at this
        exact lt_irrefl 0 this
      · intro hnone
        exact absurd (List.mem_cons_self _ t) (hnone f)

/-- C5: the smoothed-pitch state is updated only by non-`null` ticks — a
`null` estimate leaves it exactly unchanged; the first frequency estimate
ever received becomes the state verbatim; every later frequency estimate
`f` turns state `s` into `smoothAlpha * f + (1 - smoothAlpha) * s`
(`0.2*f + 0.8*s`).  The trace hypothesis restricts estimates to values the
detector can produce (`null` or an in-range frequency). -/
theorem c5_smoother_update (prev : List JSOut) (f : ℚ)
    (hprev : ∀ e ∈ prev, validEst e)
    (hf : MIN_FREQUENCY ≤ f ∧ f ≤ MAX_FREQUENCY) :
    runSmoother (prev ++ [JSOut.null]) = runSmoother prev ∧
    ((∀ g : ℚ, JSOut.freq g ∉ prev) →
      runSmoother (prev ++ [JSOut.freq f]) = f) ∧
    ((∃ g : ℚ, JSOut.freq g ∈ prev) →
      runSmoother (prev ++ [JSOut.freq f]) =
        smoothAlpha * f + (1 - smoothAlpha) * runSmoother prev) := by
  have hf0 : ¬ f = 0 := by
    unfold MIN_FREQUENCY at hf
    intro hc
    rcases hf with ⟨h1, -⟩
    rw [hc] at h1
    linarith
  have happ : ∀ e, runSmoother (prev ++ [e]) = loopStep (runSmoother prev) e := by
    intro e
    unfold runSmoother
    rw [List.foldl_append]
    rfl
  refine ⟨?_, ?_, ?_⟩
  · rw [happ]
    rfl
  · intro hnone
    have hzero : runSmoother prev = 0 := (runSmoother_eq_zero_iff prev hprev).mpr hnone
    rw [happ]
    simp only [loopStep]
    rw [if_neg hf0, if_pos hzero]
  · rintro ⟨g, hg⟩
    have hnz : ¬ runSmoother prev = 0 := by
      intro hc
      exact ((runSmoother_eq_zero_iff prev hprev).mp hc) g hg
    rw [happ]
    simp only [loopStep]
    rw [if_neg hf0, if_neg hnz]

theorem c5_smoother_update_witness :
    runSmoother [JSOut.null, JSOut.freq 100, JSOut.null] =
      runSmoother [JSOut.null, JSOut.freq 100] ∧
    runSmoother [JSOut.freq 90] = 90 ∧
    runSmoother [JSOut.null, JSOut.freq 100, JSOut.freq 90] =
      smoothAlpha * 90 + (1 - smoothAlpha) * runSmoother [JSOut.null, JSOut.freq 100] := by
  have hv1 : ∀ e ∈ [JSOut.null, JSOut.freq 100], validEst e := by
    intro e he
    rcases List.mem_cons.mp he with rfl | he'
    · exact Or.inl rfl
    · rcases List.mem_cons.mp he' with rfl | he''
      · exact Or.inr ⟨100, rfl, by norm_num [MIN_FREQUENCY], by norm_num [MAX_FREQUENCY]⟩
      · simp at he''
  have hv0 : ∀ e ∈ ([] : List JSOut), validEst e := by
    intro e he
    simp at he
  have h1 := c5_smoother_update [JSOut.null, JSOut.freq 100] 90 hv1
    ⟨by norm_num [MIN_FREQUENCY], by norm_num [MAX_FREQUENCY]⟩
  have h2 := c5_smoother_update [] 90 hv0
    ⟨by norm_num [MIN_FREQUENCY], by norm_num [MAX_FREQUENCY]⟩
  refine ⟨h1.1, ?_, ?_⟩
  · have := h2.2.1 (by intro g hg; simp at hg)
    simpa using this
  · exact h1.2.2 ⟨100, by simp⟩

/-! ### Note math (app.js lines 44–61), over `ℝ` -/

/-- Constant `A4` (app.js line 45). -/
def A4 : ℝ := 440

/-- Model of `Math.log2`: `some (logb 2 x)` for positive finite `x`; `none`
models the non-finite JS results, `NaN` for `x < 0` and `-Infinity` for
`x = 0` (both propagate through the arithmetic and `Math.round` to a
non-integer final value). -/
noncomputable def jsLog2 (x : ℝ) : Option ℝ :=
  if 0 < x then some (Real.logb 2 x) else none

/-- Function `freqToMidi` (app.js lines 48–50):
`Math.round(12 * Math.log2(freq / A4) + 69)`; `none` models a non-finite
result. -/
noncomputable def freqToMidi (freq : ℝ) : Option ℤ :=
  (jsLog2 (freq / A4)).map fun l => round (12 * l + 69)

/-- Function `midiToFreq` (app.js lines 51–53): `A4 * Math.pow(2, (midi - 69) / 12)`. -/
noncomputable def midiToFreq (midi : ℤ) : ℝ :=
  A4 * (2 : ℝ) ^ (((midi : ℝ) - 69) / 12)

/-- Function `centsOff` (app.js lines 59–61):
`Math.round(1200 * Math.log2(freq / target))`; `none` models a non-finite
result. -/
noncomputable def centsOff (freq target : ℝ) : Option ℤ :=
  (jsLog2 (freq / target)).map fun l => round (1200 * l)

/-- Constant `NOTE_NAMES` (app.js line 46). -/
def NOTE_NAMES : List String :=
  ["Do", "Do♯/Re♭", "Re", "Re♯/Mi♭", "Mi", "Fa", "Fa♯/Sol♭", "Sol",
   "Sol♯/La♭", "La", "La♯/Si♭", "Si"]

/-- Function `midiToNoteName` (app.js lines 54–58).  JS `%` is the truncated
remainder (`Int.tmod`), which is negative for negative `midi`; then
`NOTE_NAMES[midi % 12]` is `undefined` and the template literal renders it
as the string `"undefined"`.  The octave is `Math.floor(midi / 12) - 1`,
i.e. floor division `Int.fdiv`. -/
def midiToNoteName (midi : ℤ) : String :=
  (if 0 ≤ midi.tmod 12
   then NOTE_NAMES.getD (midi.tmod 12).toNat "undefined"
   else "undefined")
  ++ toString (midi.fdiv 12 - 1)

/-- The spec's description of `noteIndexToName` (§4.1): the chromatic name
at `n mod 12` with the mathematical (always non-negative) modulo, appended
with octave `floor(n/12) - 1`. -/
def noteNameSpec (n : ℤ) : String :=
  NOTE_NAMES.getD (n.emod 12).toNat "" ++ toString (n.fdiv 12 - 1)

/-- Rounding as `Math.round` does is monotone. -/
lemma round_le_round (a b : ℝ) (h : a ≤ b) : round a ≤ round b := by
  rw [round_eq, round_eq]
  exact Int.floor_le_floor (by linarith)

/-- C6: for every note index `n` in `[21, 108]` (indeed for every integer),
converting the index to its equal-temperament frequency and back recovers
the index exactly. -/
theorem c6_note_roundtrip (n : ℤ) (h1 : 21 ≤ n) (h2 : n ≤ 108) :
    freqToMidi (midiToFreq n) = some n := by
  have h440 : (440 : ℝ) ≠ 0 := by norm_num
  have hx : midiToFreq n / A4 = (2 : ℝ) ^ (((n : ℝ) - 69) / 12) := by
    unfold midiToFreq A4
    rw [mul_div_cancel_left₀ _ h440]
  have hpos : (0 : ℝ) < midiToFreq n / A4 := by
    rw [hx]
    exact Real.rpow_pos_of_pos (by norm_num) _
  unfold freqToMidi jsLog2
  rw [if_pos hpos, hx, Real.logb_rpow (by norm_num) (by norm_num)]
  have harg : 12 * ((((n : ℤ) : ℝ) - 69) / 12) + 69 = ((n : ℤ) : ℝ) := by ring
  simp only [Option.map_some']
  rw [harg, round_intCast]

theorem c6_note_roundtrip_witness :
    (21 : ℤ) ≤ 69 ∧ (69 : ℤ) ≤ 108 ∧ freqToMidi (midiToFreq 69) = some 69 :=
  ⟨by norm_num, by norm_num, c6_note_roundtrip 69 (by norm_num) (by norm_num)⟩

/-- C7 (counterexample to the claim as stated): at the non-positive
frequency `-1` both `freqToMidi` and `centsOff` return the non-finite
marker (`Math.log2(-1/440) = NaN` in JS), not an `InvalidFrequency` error —
no error is raised anywhere in the note math. -/
theorem c7_counterexample_negative_freq_yields_nan :
    freqToMidi (-1) = none ∧ centsOff (-1) 440 = none := by
  constructor
  · unfold freqToMidi jsLog2 A4
    rw [if_neg (by norm_num)]
    rfl
  · unfold centsOff jsLog2
    rw [if_neg (by norm_num)]
    rfl

/-- C7 (amended): for every non-positive frequency (and positive target),
`freqToMidi` and `centsOff` produce the non-finite value `NaN`/`-Infinity`
(modelled `none`) instead of an integer; no error is raised. -/
theorem c7_nonpositive_freq_gives_nan (f t : ℝ) (hf : f ≤ 0) (ht : 0 < t) :
    freqToMidi f = none ∧ centsOff f t = none := by
  have h1 : ¬ (0 < f / A4) := by
    apply not_lt.mpr
    exact div_nonpos_iff.mpr (Or.inr ⟨hf, by unfold A4; norm_num⟩)
  have h2 : ¬ (0 < f / t) := by
    apply not_lt.mpr
    exact div_nonpos_iff.mpr (Or.inr ⟨hf, le_of_lt ht⟩)
  constructor
  · unfold freqToMidi jsLog2
    rw [if_neg h1]
    rfl
  · unfold centsOff jsLog2
    rw [if_neg h2]
    rfl

theorem c7_nonpositive_freq_gives_nan_witness :
    (-1 : ℝ) ≤ 0 ∧ (0 : ℝ) < 440 ∧ freqToMidi (-1) = none ∧ centsOff (-1) 440 = none := by
  have h := c7_nonpositive_freq_gives_nan (-1) 440 (by norm_num) (by norm_num)
  exact ⟨by norm_num, by norm_num, h.1, h.2⟩

/-- C8 (counterexample to the claim as stated): `centsOff` is not strictly
increasing in the input frequency — `440` and `440.01` are distinct inputs
with the same rounded cents offset `0` against target `440`. -/
theorem c8_counterexample_not_strictly_increasing :
    (440 : ℝ) < 44001 / 100 ∧
    centsOff 440 440 = some 0 ∧
    centsOff (44001 / 100) 440 = some 0 := by
  have hlog2pos : (0 : ℝ) < Real.log 2 := Real.log_pos (by norm_num)
  refine ⟨by norm_num, ?_, ?_⟩
  · unfold centsOff jsLog2
    rw [if_pos (by norm_num : (0:ℝ) < 440 / 440)]
    simp only [Option.map_some']
    rw [show (440 : ℝ) / 440 = 1 by norm_num, Real.logb_one]
    norm_num
  · unfold centsOff jsLog2
    rw [if_pos (by norm_num : (0:ℝ) < (44001 / 100) / 440)]
    simp only [Option.map_some']
    rw [show (44001 / 100 : ℝ) / 440 = 44001 / 44000 by norm_num]
    have h0 : (0 : ℝ) ≤ Real.logb 2 (44001 / 44000) :=
      Real.logb_nonneg (by norm_num) (by norm_num)
    have hlt : Real.logb 2 (44001 / 44000 : ℝ) < 1 / 2400 := by
      rw [Real.logb, div_lt_iff₀ hlog2pos]
      have h1 : Real.log (44001 / 44000 : ℝ) ≤ 44001 / 44000 - 1 :=
        Real.log_le_sub_one_of_pos (by norm_num)
      have h3 := Real.log_two_gt_d9
      nlinarith
    have hz : round (1200 * Real.logb 2 (44001 / 44000 : ℝ)) = 0 := by
      rw [round_eq]
      apply Int.floor_eq_zero_iff.mpr
      rw [Set.mem_Ico]
      constructor
      · linarith
      · linarith
    rw [hz]

/-- C8 (amended): for a fixed positive target, the rounded cents offset is
monotone nondecreasing in the input frequency over positive frequencies
(the unrounded `1200 * log2(f/target)` is strictly increasing, but rounding
collapses nearby frequencies to equal integer offsets). -/
theorem c8_cents_monotone (t f1 f2 : ℝ) (ht : 0 < t) (hf1 : 0 < f1)
    (h12 : f1 ≤ f2) :
    ∃ n1 n2 : ℤ, centsOff f1 t = some n1 ∧ centsOff f2 t = some n2 ∧ n1 ≤ n2 := by
  have hq1 : 0 < f1 / t := div_pos hf1 ht
  have hq2 : 0 < f2 / t := div_pos (lt_of_lt_of_le hf1 h12) ht
  refine ⟨round (1200 * Real.logb 2 (f1 / t)), round (1200 * Real.logb 2 (f2 / t)),
    ?_, ?_, ?_⟩
  · unfold centsOff jsLog2
    rw [if_pos hq1]
    rfl
  · unfold centsOff jsLog2
    rw [if_pos hq2]
    rfl
  · apply round_le_round
    have hmono : Real.logb 2 (f1 / t) ≤ Real.logb 2 (f2 / t) :=
      Real.logb_le_logb_of_le (by norm_num) hq1 ((div_le_div_iff_of_pos_right ht).mpr h12)
    linarith

theorem c8_cents_monotone_witness :
    (0 : ℝ) < 440 ∧ (0 : ℝ) < 440 ∧ (440 : ℝ) ≤ 880 ∧
    ∃ n1 n2 : ℤ, centsOff 440 440 = some n1 ∧ centsOff 880 440 = some n2 ∧ n1 ≤ n2 := by
  have h := c8_cents_monotone 440 440 880 (by norm_num) (by norm_num) (by norm_num)
  exact ⟨by norm_num, by norm_num, by norm_num, h⟩

/-- C9 (counterexample to the claim as stated): at the negative note index
`-1` the JS remainder is `-1`, the name lookup is out of range
(`undefined`), and the rendered string is `"undefined-2"`, not the
`"Si-2"` the mathematical-modulo description prescribes. -/
theorem c9_counterexample_negative_index :
    midiToNoteName (-1) = "undefined-2" ∧ noteNameSpec (-1) = "Si-2" ∧
    midiToNoteName (-1) ≠ noteNameSpec (-1) := by
  refine ⟨?_, ?_, ?_⟩ <;> decide

/-- C9 (amended): `midiToNoteName` matches the mathematical-modulo
description exactly for the note indices whose JS truncated remainder
`n % 12` is non-negative — the non-negative indices and the negative
multiples of 12 (where JS computes `-0`, which still indexes
`NOTE_NAMES[0]`); for every negative index not divisible by 12 the JS
remainder is strictly negative, the name lookup is out of range, and the
rendered string is `"undefined"` followed by the octave
`floor(n/12) - 1`. -/
theorem c9_note_name_agreement (n : ℤ) :
    ((0 ≤ n ∨ (12 : ℤ) ∣ n) → midiToNoteName n = noteNameSpec n) ∧
    (n < 0 → ¬ (12 : ℤ) ∣ n →
      midiToNoteName n = "undefined" ++ toString (n.fdiv 12 - 1)) := by
  constructor
  · intro h
    have htm : n.tmod 12 = n.emod 12 := by
      rcases h with h | h
      · exact Int.tmod_eq_emod h (by norm_num)
      · have h1 : n.tmod 12 = 0 := Int.tmod_eq_zero_of_dvd h
        have h2 : n.emod 12 = 0 := Int.emod_eq_zero_of_dvd h
        rw [h1, h2]
    unfold midiToNoteName noteNameSpec
    have h0 : 0 ≤ n.emod 12 := Int.emod_nonneg n (by norm_num)
    have h12 : n.emod 12 < 12 := Int.emod_lt_of_pos n (by norm_num)
    rw [htm, if_pos h0]
    congr 1
    have hlt : (n.emod 12).toNat < NOTE_NAMES.length := by
      simp only [NOTE_NAMES, List.length_cons, List.length_nil]
      omega
    rw [List.getD_eq_getElem NOTE_NAMES _ hlt, List.getD_eq_getElem NOTE_NAMES _ hlt]
  · intro hneg hnd
    have hne : n.tmod 12 ≠ 0 := fun hc => hnd (Int.dvd_iff_tmod_eq_zero.mpr hc)
    have hle : n.tmod 12 ≤ 0 := by
      rcases n with m | m
      · exact absurd hneg (not_lt.mpr (Int.ofNat_nonneg m))
      · show (Int.negSucc m).tmod 12 ≤ 0
        have hdef : (Int.negSucc m).tmod 12 = -(Int.ofNat ((m + 1) % 12)) := rfl
        rw [hdef]
        exact neg_nonpos.mpr (Int.ofNat_nonneg _)
    unfold midiToNoteName
    rw [if_neg (by omega)]

theorem c9_note_name_agreement_witness :
    midiToNoteName (-12) = noteNameSpec (-12) ∧ midiToNoteName (-12) = "Do-2" ∧
    midiToNoteName 61 = noteNameSpec 61 ∧ midiToNoteName 61 = "Do♯/Re♭4" ∧
    midiToNoteName (-1) = "undefined" ++ toString ((-1 : ℤ).fdiv 12 - 1) :=
  ⟨(c9_note_name_agreement (-12)).1 (Or.inr (by omega)), by decide,
   (c9_note_name_agreement 61).1 (Or.inl (by norm_num)), by decide,
   (c9_note_name_agreement (-1)).2 (by norm_num) (by omega)⟩

/-- The cents offset of `f` against the frequency of any note index `n`, in
terms of the note-index coordinate `12 * log2(f/A4) + 69` of `f`. -/
lemma centsOff_midiToFreq (f : ℝ) (hf : 0 < f) (n : ℤ) :
    centsOff f (midiToFreq n) =
      some (round (100 * ((12 * Real.logb 2 (f / A4) + 69) - (n : ℝ)))) := by
  have hA : (0 : ℝ) < A4 := by unfold A4; norm_num
  have hy : (0 : ℝ) < (2 : ℝ) ^ (((n : ℝ) - 69) / 12) :=
    Real.rpow_pos_of_pos (by norm_num) _
  have ht : 0 < midiToFreq n := by
    unfold midiToFreq
    exact mul_pos hA hy
  have hqt : 0 < f / midiToFreq n := div_pos hf ht
  unfold centsOff jsLog2
  rw [if_pos hqt]
  simp only [Option.map_some']
  have hsplit : f / midiToFreq n = (f / A4) / (2 : ℝ) ^ (((n : ℝ) - 69) / 12) := by
    unfold midiToFreq
    rw [div_mul_eq_div_div]
  have hlog : Real.logb 2 (f / midiToFreq n)
      = Real.logb 2 (f / A4) - ((n : ℝ) - 69) / 12 := by
    rw [hsplit, Real.logb_div (ne_of_gt (div_pos hf hA)) (ne_of_gt hy),
      Real.logb_rpow (by norm_num) (by norm_num)]
  rw [hlog]
  congr 1
  ring

/-- C10: for every positive frequency `f`, the rounded cents offset of `f`
against the frequency of its own nearest note index lies within
`[-50, 50]` — the displayed cents never exceed half a semitone. -/
theorem c10_cents_within_half_semitone (f : ℝ) (hf : 0 < f) :
    ∃ n k : ℤ, freqToMidi f = some n ∧ centsOff f (midiToFreq n) = some k ∧
      -50 ≤ k ∧ k ≤ 50 := by
  have hA : (0 : ℝ) < A4 := by unfold A4; norm_num
  have hq : 0 < f / A4 := div_pos hf hA
  have hfm : freqToMidi f =
      some (round (12 * Real.logb 2 (f / A4) + 69)) := by
    unfold freqToMidi jsLog2
    rw [if_pos hq]
    rfl
  refine ⟨round (12 * Real.logb 2 (f / A4) + 69), _, hfm,
    centsOff_midiToFreq f hf _, ?_, ?_⟩
  all_goals
    rcases abs_le.mp (abs_sub_round (12 * Real.logb 2 (f / A4) + 69)) with ⟨hlb, hub⟩
  · have h1 : (-50 : ℝ) ≤ 100 * ((12 * Real.logb 2 (f / A4) + 69) -
        ((round (12 * Real.logb 2 (f / A4) + 69) : ℤ) : ℝ)) := by linarith
    have ha := round_le_round _ _ h1
    rw [show ((-50 : ℝ)) = ((-50 : ℤ) : ℝ) by norm_num, round_intCast] at ha
    exact ha
  · have h2 : 100 * ((12 * Real.logb 2 (f / A4) + 69) -
        ((round (12 * Real.logb 2 (f / A4) + 69) : ℤ) : ℝ)) ≤ (50 : ℝ) := by linarith
    have hb := round_le_round _ _ h2
    rw [show ((50 : ℝ)) = ((50 : ℤ) : ℝ) by norm_num, round_intCast] at hb
    exact hb

theorem c10_cents_within_half_semitone_witness :
    (0 : ℝ) < 440 ∧
    ∃ n k : ℤ, freqToMidi 440 = some n ∧ centsOff 440 (midiToFreq n) = some k ∧
      -50 ≤ k ∧ k ≤ 50 :=
  ⟨by norm_num, c10_cents_within_half_semitone 440 (by norm_num)⟩

end AfinarVoz
